import Mathlib

/-!
# Flickr exporters: album files and tagged-photo galleries

A shallow embedding of the two Go programs of the repository,
`scripts/flickr-albums/main.go` and `scripts/flickr2galleries/main.go`,
and the properties of their formatting, naming and paging logic.

Conventions of the embedding.

* A Go string is the list of its code points, `Str := List Char`. Every string
  the programs handle comes out of `encoding/json`, which yields valid UTF-8,
  and the programs walk their strings rune by rune (`range`, `regexp`,
  `strings.ToLower`, `strings.TrimSpace`).
* Library code that the repository only calls is either modelled after its
  documented behaviour (`strings.Split`, `strings.Trim`, `strings.ReplaceAll`,
  ...) or, where it rests on tables that are not part of the repository, taken
  as a parameter: `lowerU` is `unicode.ToLower` on the runes above ASCII,
  `quote` is the `%q` verb of `fmt`, `join` is `filepath.Join`, `now` is the
  text `time.Now().Format` returns.
* The output directory of the tagged-photo export is the list of its files;
  what the operating system answers beyond that, a failing `os.Stat` or
  `ioutil.WriteFile`, is a parameter as well (`Host`).
* A loop whose termination is not structural takes a fuel argument and returns
  `none` when the fuel runs out; the theorems show how much fuel suffices.
* Go `int` is 64 bits wide; the two counters that are incremented in a loop
  wrap around with `wrap64`.
-/

/-- A Go string, as the list of its code points. -/
abbrev Str := List Char

/-- Two's complement wrap-around of a 64-bit signed integer. -/
def wrap64 (x : Int) : Int :=
  (x + 9223372036854775808) % 18446744073709551616 - 9223372036854775808

namespace GoStrings

/-- Library `unicode.ToLower` on one rune: the ASCII letters are shifted, the
other ASCII runes stay, and the runes above ASCII go through the case tables of
the Go library, `lowerU`. -/
def lowerRune (lowerU : Char → Char) (r : Char) : Char :=
  if r.toNat < 128 then
    (if 'A' ≤ r ∧ r ≤ 'Z' then Char.ofNat (r.toNat + 32) else r)
  else lowerU r

/-- Library `strings.ToLower`: every rune mapped through `unicode.ToLower`. -/
def toLower (lowerU : Char → Char) (s : Str) : Str :=
  s.map (lowerRune lowerU)

/-- Library `strings.Trim(s, cutset)`: the leading and the trailing runes that
occur in `cutset` are removed (the trailing ones first, as in the library). -/
def trim (s cutset : Str) : Str :=
  (s.rdropWhile (fun r => decide (r ∈ cutset))).dropWhile (fun r => decide (r ∈ cutset))

/-- Library `strings.Contains(s, substr)`. -/
def contains (s substr : Str) : Bool :=
  s.tails.any (fun t => substr.isPrefixOf t)

/-- The scan of `strings.ReplaceAll(s, old, new)` for a non-empty `old`: `skip`
counts the runes of the current match that are still to be passed over. -/
def replaceAllAux (old new : Str) : Nat → Str → Str
  | _, [] => []
  | skip + 1, _ :: cs => replaceAllAux old new skip cs
  | 0, c :: cs =>
    if old.isPrefixOf (c :: cs) then new ++ replaceAllAux old new (old.length - 1) cs
    else c :: replaceAllAux old new 0 cs

/-- Library `strings.ReplaceAll(s, old, new)` for a non-empty `old` (the
programs only call it with `"\""` and `"--"`): the non-overlapping occurrences
of `old`, found from left to right, are replaced by `new`. -/
def replaceAll (s old new : Str) : Str :=
  replaceAllAux old new 0 s

/-- Library `strings.Count(s, substr)` for a one-rune `substr`. -/
def count (s : Str) (c : Char) : Nat :=
  s.count c

/-- Library `strings.Split(s, sep)` for a one-rune `sep`: the pieces between
the separators, one more than there are separators. -/
def split (s : Str) (sep : Char) : List Str :=
  match s with
  | [] => [[]]
  | c :: cs =>
    if c = sep then [] :: split cs sep
    else
      match split cs sep with
      | [] => [[c]]
      | w :: ws => (c :: w) :: ws

/-- Library `strings.Join(elems, sep)`. -/
def join (elems : List Str) (sep : Str) : Str :=
  match elems with
  | [] => []
  | [e] => e
  | e :: es => e ++ sep ++ join es sep

/-- Library `unicode.IsSpace`: the white space runes of Unicode. -/
def isSpace (r : Char) : Bool :=
  r = '\t' || r = '\n' || r.toNat = 0x0B || r.toNat = 0x0C || r = '\r' || r = ' '
    || r.toNat = 0x85 || r.toNat = 0xA0 || r.toNat = 0x1680
    || (0x2000 ≤ r.toNat && r.toNat ≤ 0x200A)
    || r.toNat = 0x2028 || r.toNat = 0x2029 || r.toNat = 0x202F
    || r.toNat = 0x205F || r.toNat = 0x3000

/-- Library `strings.TrimSpace`: leading and trailing white space removed. -/
def trimSpace (s : Str) : Str :=
  (s.rdropWhile isSpace).dropWhile isSpace

/-- Library `html.EscapeString` on one rune. -/
def htmlEscapeRune (r : Char) : Str :=
  if r = '&' then "&amp;".toList
  else if r = '\'' then "&#39;".toList
  else if r = '<' then "&lt;".toList
  else if r = '>' then "&gt;".toList
  else if r = '"' then "&#34;".toList
  else [r]

/-- Library `html.EscapeString`. -/
def htmlEscape (s : Str) : Str :=
  s.flatMap htmlEscapeRune

/-- The `%d` verb of `fmt` on an `int`. -/
def fmtInt (i : Int) : Str :=
  match i with
  | Int.ofNat n => (Nat.repr n).toList
  | Int.negSucc n => '-' :: (Nat.repr (n + 1)).toList

end GoStrings

/-! ## `scripts/flickr-albums/main.go` -/

namespace FlickrAlbums

open GoStrings

/-- Type `Album`: a Flickr photoset, with the `_content` of title and description. -/
structure Album where
  ID : Str
  Title : Str
  Description : Str

/-- Type `Photo` of the album export. -/
structure Photo where
  Title : Str
  ID : Str
  Farm : Int
  Server : Str
  Secret : Str
  OriginalSecret : Str
  OriginalFormat : Str
  H_URL : Str
  M_URL : Str
  B_URL : Str
  O_URL : Str
  W_URL : Str

/-- The character class of the pattern in `sanitizeFilename`, before negation:
`a-z`, `0-9`, `-` and `_`. -/
def isFilenameChar (r : Char) : Bool :=
  ('a' ≤ r && r ≤ 'z') || ('0' ≤ r && r ≤ '9') || r = '-' || r = '_'

/-- The scan of `regexp.MustCompile("[^a-z0-9-_]+").ReplaceAllString(name, repl)`
for a `repl` without `$`: a rune of the class `[a-z0-9-_]` is copied, the first
rune of a match emits `repl`, and the greedy `+` swallows the runes that follow
while they are outside the class (`inMatch`). -/
def reReplaceAllString (repl : Str) : Bool → Str → Str
  | _, [] => []
  | inMatch, c :: cs =>
    if isFilenameChar c then c :: reReplaceAllString repl false cs
    else (if inMatch then [] else repl) ++ reReplaceAllString repl true cs

/-- Function `sanitizeFilename`. -/
def sanitizeFilename (lowerU : Char → Char) (name : Str) : Str :=
  let name := toLower lowerU name
  trim (reReplaceAllString ['-'] false name) ['-']

/-- Function `escapeQuotes` of the album export: `"` becomes `\"`. -/
def escapeQuotes (s : Str) : Str :=
  replaceAll s ['"'] ['\\', '"']

/-- The `medium` and `large` variables of the loop body of `writeAlbumFile`,
after the fallback assignments. -/
def resolveSizes (p : Photo) : Str × Str :=
  let medium := p.M_URL
  let medium := if medium = [] then p.W_URL else medium
  let large := p.B_URL
  let large := if p.H_URL ≠ [] then p.H_URL else large
  let large := if large = [] ∧ p.O_URL ≠ [] then p.O_URL else large
  let medium := if medium = [] ∧ large ≠ [] then large else medium
  (medium, large)

/-- The `imageCaption` variable of the loop body of `writeAlbumFile`. -/
def imageCaption (p : Photo) : Str :=
  let imageCaption := p.Title
  if count imageCaption ' ' < 1 then [] else imageCaption

/-- The `header` text of `writeAlbumFile`; `p` is the photo of the iteration
that writes it. -/
def header (now : Str) (a : Album) (p : Photo) : Str :=
  "+++\ndate = '".toList ++ now ++ "'\ndraft = false\ntitle = '".toList ++ a.Title
    ++ "'\ndescription = '".toList ++ htmlEscape a.Description
    ++ "'\nimage = '".toList ++ p.M_URL ++ "'\n+++".toList

/-- The `line` text of `writeAlbumFile` for a caption and the three URLs. -/
def galleryImage (caption medium large original : Str) : Str :=
  "\x7b\x7b% gallery_image title=\"".toList ++ caption ++ "\" medium=\"".toList ++ medium
    ++ "\" large=\"".toList ++ large ++ "\" original=\"".toList ++ original
    ++ "\" %\x7d\x7d".toList

/-- The `line` text of `writeAlbumFile` for the photo `p`. -/
def line (p : Photo) : Str :=
  galleryImage (escapeQuotes (imageCaption p)) (resolveSizes p).1 (resolveSizes p).2 p.O_URL

/-- The state the loop of `writeAlbumFile` carries: the `writtenHeader` flag
and the text written to the file so far. -/
structure Writer where
  writtenHeader : Bool
  file : Str

/-- One iteration of the loop of `writeAlbumFile`. -/
def writeStep (now : Str) (a : Album) (w : Writer) (p : Photo) : Writer :=
  let w :=
    if !w.writtenHeader then
      { writtenHeader := true, file := w.file ++ (header now a p ++ ['\n']) }
    else w
  { w with file := w.file ++ (line p ++ ['\n']) }

/-- Function `writeAlbumFile`: the name of the file it creates in `outDir` and
the text it writes to it. -/
def writeAlbumFile (lowerU : Char → Char) (now : Str) (a : Album) (photos : List Photo)
    (ext : Str) : Str × Str :=
  let filename := sanitizeFilename lowerU a.Title ++ ['.'] ++ ext
  let w := photos.foldl (writeStep now a) { writtenHeader := false, file := [] }
  (filename, w.file)

end FlickrAlbums

/-! ## `scripts/flickr2galleries/main.go` -/

namespace Flickr2Galleries

open GoStrings

/-- Type `Photo` of the tagged-photo export, with the `_content` of the
description. -/
structure Photo where
  ID : Str
  Title : Str
  Description : Str
  URLLarge : Str
  URLMed : Str
  URLSmall : Str
  URLSquare : Str
  Tags : Str
  DateTaken : Str

/-- The test on a rune in the loop of `sanitizeSlug`. -/
def isSlugRune (r : Char) : Bool :=
  (r ≥ 'a' && r ≤ 'z') || (r ≥ '0' && r ≤ '9')

/-- The loop `for strings.Contains(slug, "--")` of `sanitizeSlug`. Every round
shortens the slug, so as many rounds as the slug has runes are enough. -/
def collapseLoop : Nat → Str → Str
  | 0, slug => slug
  | fuel + 1, slug =>
    if contains slug ['-', '-'] then collapseLoop fuel (replaceAll slug ['-', '-'] ['-'])
    else slug

/-- Function `sanitizeSlug`. -/
def sanitizeSlug (lowerU : Char → Char) (s : Str) : Str :=
  let s := toLower lowerU s
  let b := s.map (fun r => if isSlugRune r then r else '-')
  let slug := trim b ['-']
  collapseLoop slug.length slug

/-- Function `escapeQuotes` of the tagged-photo export: `"` becomes `'`. -/
def escapeQuotes (s : Str) : Str :=
  replaceAll s ['"'] ['\'']

/-- Function `chooseThumbnail`. -/
def chooseThumbnail (p : Photo) : Str :=
  if p.URLSquare ≠ [] then p.URLSquare
  else if p.URLSmall ≠ [] then p.URLSmall
  else if p.URLMed ≠ [] then p.URLMed
  else p.URLLarge

/-- Function `chooseImage`. -/
def chooseImage (p : Photo) : Str :=
  if p.URLLarge ≠ [] then p.URLLarge
  else if p.URLMed ≠ [] then p.URLMed
  else if p.URLSmall ≠ [] then p.URLSmall
  else p.URLSquare

/-- The state of the output directory: the files that exist, each path with
its content. -/
abbrev FS := List (Str × Str)

/-- What the operating system answers for a path, whatever files the output
directory holds: whether `os.Stat` fails on it with an error other than "does
not exist" (a name that is too long, a missing permission, a path through a
file, ...) and whether `ioutil.WriteFile` fails on it. -/
structure Host where
  statFails : Str → Bool
  writeFails : Str → Bool

/-- The path names a file of the directory. -/
def fileExists (fs : FS) (path : Str) : Bool :=
  fs.any (fun f => f.1 = path)

/-- The test `_, err := os.Stat(path); os.IsNotExist(err)` of `writeMarkdown`:
true only when `os.Stat` reports that the path does not exist. It is false
when the file exists, and false as well when `os.Stat` fails with any other
error. -/
def statIsNotExist (host : Host) (fs : FS) (path : Str) : Bool :=
  !host.statFails path && !fileExists fs path

/-- How a call of `writeMarkdown` returns: normally, with the files the
directory then holds, or with the panic that follows a failed
`ioutil.WriteFile`. -/
inductive Written where
  | panic : Written
  | ok : FS → Written

/-- The call `ioutil.WriteFile(path, content)` of `writeMarkdown` and the
`panic(err)` after it: the file is created, or replaced when the path exists,
unless the call fails. -/
def writeFile (host : Host) (fs : FS) (path content : Str) : Written :=
  if host.writeFails path then Written.panic
  else Written.ok ((path, content) :: fs.filter (fun f => f.1 ≠ path))

/-- The loop `// ensure unique filename` of `writeMarkdown`, entered with the
current `uniqueFilename` and the counter `i`. It is left only when `os.Stat`
reports that the path does not exist. -/
def uniqueLoop (host : Host) (join : Str → Str → Str) (fs : FS) (outDir slug : Str) :
    Nat → Str → Int → Option Str
  | 0, _, _ => none
  | fuel + 1, uniqueFilename, i =>
    if statIsNotExist host fs uniqueFilename then some uniqueFilename
    else
      uniqueLoop host join fs outDir slug fuel
        (join outDir (slug ++ ['-'] ++ fmtInt i ++ ".md".toList)) (wrap64 (i + 1))

/-- The `quotedTags` slice of `writeMarkdown`. -/
def quotedTags (quote : Str → Str) (tags : Str) : List Str :=
  let tagList := split (trimSpace tags) ' '
  tagList.foldl (fun quotedTags t => if t ≠ [] then quotedTags ++ [quote t] else quotedTags) []

/-- The `content` text of `writeMarkdown`. -/
def content (quote : Str → Str) (date : Str) (p : Photo) : Str :=
  "---\ntitle: \"".toList ++ escapeQuotes p.Title ++ "\"\ndate: ".toList ++ date
    ++ "\nflickr_id: ".toList ++ p.ID
    ++ "\ntags: [".toList ++ join (quotedTags quote p.Tags) ", ".toList
    ++ "]\nthumbnail: ".toList ++ chooseThumbnail p
    ++ "\nimage: ".toList ++ chooseImage p
    ++ "\n---\n\n".toList ++ p.Description ++ ['\n']

/-- Function `writeMarkdown`, on the state of the output directory: `none`
when the fuel of the file name loop runs out. -/
def writeMarkdown (host : Host) (lowerU : Char → Char) (quote : Str → Str)
    (join : Str → Str → Str) (now : Str) (fuel : Nat) (outDir : Str) (fs : FS) (p : Photo) :
    Option Written :=
  if p.Tags = [] then some (Written.ok fs)
  else
    let slug := sanitizeSlug lowerU p.Title
    let slug := if slug = [] then p.ID else slug
    let date := p.DateTaken
    let date := if date = [] then now else date
    let filename := join outDir (slug ++ ".md".toList)
    match uniqueLoop host join fs outDir slug fuel filename 1 with
    | none => none
    | some filename => some (writeFile host fs filename (content quote date p))

end Flickr2Galleries

/-! ## Definitions that follow the wording of the specification -/

namespace Spec

open GoStrings

/-- The first non-empty URL of a priority list, the empty string when there is
none. -/
def firstNonEmpty (urls : List Str) : Str :=
  (urls.find? (fun u => decide (u ≠ []))).getD []

/-- A title has an interior space when a space stands somewhere other than as
its first or last character. -/
def hasInteriorSpace (title : Str) : Bool :=
  decide (' ' ∈ (title.drop 1).dropLast)

/-- The tags of a raw tag string as the specification words them: the string
split on the space character, the empty pieces dropped. -/
def tagPieces (raw : Str) : List Str :=
  (split raw ' ').filter (fun t => decide (t ≠ []))

/-- Every maximal run of characters that satisfy `bad` replaced by the single
character `h`: the text is cut into its maximal runs of `bad` characters and
the characters in between, and each run gives one `h`. -/
def squeezeRuns (bad : Char → Bool) (h : Char) (s : Str) : Str :=
  ((s.splitBy (fun a b => bad a && bad b)).map
    (fun run => if run.all bad then [h] else run)).flatten

/-- The same replacement as a scan from left to right: `inRun` tells that the
previous character was `bad`, so that the run has given its `h` already. -/
def squeezeFrom (bad : Char → Bool) (h : Char) : Bool → Str → Str
  | _, [] => []
  | inRun, c :: cs =>
    if bad c then (if inRun then [] else [h]) ++ squeezeFrom bad h true cs
    else c :: squeezeFrom bad h false cs

/-- The file name of an album as the specification words it: lower-cased,
every maximal run of characters outside `[a-z0-9-_]` replaced by one hyphen,
leading and trailing hyphens removed. -/
def filename (lowerU : Char → Char) (title : Str) : Str :=
  trim (squeezeRuns (fun r => !FlickrAlbums.isFilenameChar r) '-' (toLower lowerU title)) ['-']

/-- The slug of a title as the specification words it: lower-cased, every
character outside `[a-z0-9]` replaced by a hyphen, every run of hyphens
collapsed to one, leading and trailing hyphens removed. -/
def slug (lowerU : Char → Char) (title : Str) : Str :=
  trim (squeezeRuns (fun r => r = '-') '-'
    ((toLower lowerU title).map (fun r => if Flickr2Galleries.isSlugRune r then r else '-'))) ['-']

/-- The file names `writeMarkdown` tries for a slug, in order: `slug.md`, then
`slug-1.md`, `slug-2.md`, ... -/
def candidate (slug : Str) : Nat → Str
  | 0 => slug ++ ".md".toList
  | k + 1 => slug ++ ['-'] ++ (Nat.repr (k + 1)).toList ++ ".md".toList

/-- The slug of a photo: `sanitizeSlug` of its title, or the photo id when
that slug is empty. -/
def photoSlug (lowerU : Char → Char) (p : Flickr2Galleries.Photo) : Str :=
  if Flickr2Galleries.sanitizeSlug lowerU p.Title = [] then p.ID
  else Flickr2Galleries.sanitizeSlug lowerU p.Title

/-- The number a string of decimal digits stands for. -/
def decimalValue (ds : Str) : Nat :=
  ds.foldl (fun acc c => 10 * acc + (c.toNat - 48)) 0

end Spec

/-! ## Concrete inputs -/

namespace FlickrAlbums

/-- An album photo with the given title and no URL. -/
def photoTitled (title : Str) : Photo :=
  { Title := title, ID := [], Farm := 0, Server := [], Secret := [], OriginalSecret := [],
    OriginalFormat := [], H_URL := [], M_URL := [], B_URL := [], O_URL := [], W_URL := [] }

/-- An album with the title "Trip" and the description "2 < 3". -/
def tripAlbum : Album :=
  { ID := "1".toList, Title := "Trip".toList, Description := "2 < 3".toList }

end FlickrAlbums

namespace Flickr2Galleries

/-- A photo of the tagged-photo export with the given id, title and tag
string, no URL, no description and no capture date. -/
def photoTagged (id title tags : Str) : Photo :=
  { ID := id, Title := title, Description := [], URLLarge := [], URLMed := [], URLSmall := [],
    URLSquare := [], Tags := tags, DateTaken := [] }

/-- A stand-in for `filepath.Join(outDir, name)` on a plain file name. -/
def joinPlain (outDir name : Str) : Str :=
  outDir ++ ['/'] ++ name

/-- A host on which neither `os.Stat` nor `ioutil.WriteFile` fails. -/
def quietHost : Host :=
  { statFails := fun _ => false, writeFails := fun _ => false }

/-- The file name of a path: what follows its last `/`. -/
def lastComponent (path : Str) : Str :=
  (path.reverse.takeWhile (fun c => decide (c ≠ '/'))).reverse

/-- The length of a string in bytes, in UTF-8. -/
def byteLength (s : Str) : Nat :=
  (s.map Char.utf8Size).sum

/-- A Linux host: `os.Stat` and `ioutil.WriteFile` fail with ENAMETOOLONG on a
path whose file name is longer than 255 bytes. -/
def linuxHost : Host :=
  { statFails := fun path => decide (255 < byteLength (lastComponent path)),
    writeFails := fun path => decide (255 < byteLength (lastComponent path)) }

/-- A tagged photo whose title is the letter "a" 300 times. -/
def longTitlePhoto : Photo :=
  photoTagged "7".toList (List.replicate 300 'a') "sky".toList

end Flickr2Galleries

/-! ## Image variants (album export) -/

namespace FlickrAlbums

open GoStrings

/-- C1: the large reference of a photo is its "h" URL if non-empty, else its
"b" URL if non-empty, else its "o" URL; the medium reference is the "m" URL if
non-empty, else the "w" URL if non-empty, else the resolved large. A photo with
only the "o" URL set gets large = medium = "o", and a photo with "h" and "b"
set gets large = "h". -/
theorem resolveSizes_fallback_chain (p : Photo) :
    (resolveSizes p).2
        = (if p.H_URL ≠ [] then p.H_URL else if p.B_URL ≠ [] then p.B_URL else p.O_URL)
    ∧ (resolveSizes p).1
        = (if p.M_URL ≠ [] then p.M_URL else if p.W_URL ≠ [] then p.W_URL
            else (resolveSizes p).2)
    ∧ (p.H_URL = [] ∧ p.B_URL = [] ∧ p.M_URL = [] ∧ p.W_URL = [] →
        (resolveSizes p).2 = p.O_URL ∧ (resolveSizes p).1 = p.O_URL)
    ∧ (p.H_URL ≠ [] ∧ p.B_URL ≠ [] → (resolveSizes p).2 = p.H_URL)
    ∧ line p = galleryImage (escapeQuotes (imageCaption p)) (resolveSizes p).1
        (resolveSizes p).2 p.O_URL := by
  refine ⟨?_, ?_, ?_, ?_, rfl⟩
  · unfold resolveSizes
    by_cases hH : p.H_URL = [] <;> by_cases hB : p.B_URL = [] <;>
      by_cases hO : p.O_URL = [] <;> simp [hH, hB, hO]
  · unfold resolveSizes
    by_cases hM : p.M_URL = [] <;> by_cases hW : p.W_URL = [] <;>
      by_cases hH : p.H_URL = [] <;> by_cases hB : p.B_URL = [] <;>
      by_cases hO : p.O_URL = [] <;> simp [hM, hW, hH, hB, hO]
  · rintro ⟨hH, hB, hM, hW⟩
    unfold resolveSizes
    by_cases hO : p.O_URL = [] <;> simp [hM, hW, hH, hB, hO]
  · rintro ⟨hH, hB⟩
    unfold resolveSizes
    simp [hH]

end FlickrAlbums

/-! ## Thumbnail and image (tagged-photo export) -/

namespace Flickr2Galleries

open GoStrings

/-- C9: `chooseThumbnail` returns the first non-empty URL in the order square,
small, medium, large, and `chooseImage` the first non-empty URL in the order
large, medium, small, square; each is empty only when all four URLs are. -/
theorem choose_first_non_empty (p : Photo) :
    chooseThumbnail p = Spec.firstNonEmpty [p.URLSquare, p.URLSmall, p.URLMed, p.URLLarge]
    ∧ chooseImage p = Spec.firstNonEmpty [p.URLLarge, p.URLMed, p.URLSmall, p.URLSquare]
    ∧ (chooseThumbnail p = [] ↔
        p.URLSquare = [] ∧ p.URLSmall = [] ∧ p.URLMed = [] ∧ p.URLLarge = [])
    ∧ (chooseImage p = [] ↔
        p.URLSquare = [] ∧ p.URLSmall = [] ∧ p.URLMed = [] ∧ p.URLLarge = []) := by
  unfold chooseThumbnail chooseImage Spec.firstNonEmpty
  by_cases h1 : p.URLSquare = [] <;> by_cases h2 : p.URLSmall = [] <;>
    by_cases h3 : p.URLMed = [] <;> by_cases h4 : p.URLLarge = [] <;>
    simp [List.find?, h1, h2, h3, h4]

end Flickr2Galleries

/-! ## Captions and the album file (album export) -/

namespace GoStrings

theorem replaceAll_eq_nil_iff (s old new : Str) (hnew : new ≠ []) :
    replaceAll s old new = [] ↔ s = [] := by
  cases s with
  | nil => simp [replaceAll, replaceAllAux]
  | cons c cs =>
    simp only [replaceAll, replaceAllAux]
    split <;> simp [hnew]

end GoStrings

namespace FlickrAlbums

open GoStrings

/-- C5, the code at a title with a space at its end: the caption of a
directive is empty exactly when the title holds no space character at all, so
the one-word title "Sunset " (no interior space) keeps its caption, whereas
"Sunset" has none and "Sunset Beach" has the caption "Sunset Beach". -/
theorem caption_kept_for_outer_space :
    (∀ p : Photo, escapeQuotes (imageCaption p) = [] ↔ ' ' ∉ p.Title)
    ∧ Spec.hasInteriorSpace "Sunset ".toList = false
    ∧ escapeQuotes (imageCaption (photoTitled "Sunset ".toList)) = "Sunset ".toList
    ∧ line (photoTitled "Sunset ".toList)
        = "\x7b\x7b% gallery_image title=\"Sunset \" medium=\"\" large=\"\" original=\"\" %\x7d\x7d".toList
    ∧ escapeQuotes (imageCaption (photoTitled "Sunset".toList)) = []
    ∧ escapeQuotes (imageCaption (photoTitled "Sunset Beach".toList)) = "Sunset Beach".toList := by
  refine ⟨?_, by decide, by decide, by decide, by decide, by decide⟩
  intro p
  unfold escapeQuotes
  rw [replaceAll_eq_nil_iff _ _ _ (by simp)]
  unfold imageCaption GoStrings.count
  by_cases h : ' ' ∈ p.Title
  · have hc : 0 < List.count ' ' p.Title := List.count_pos_iff.mpr h
    have hne : p.Title ≠ [] := List.ne_nil_of_mem h
    simp [h, hne]
    omega
  · simp [h, List.count_eq_zero_of_not_mem h]

theorem foldl_writeStep_written (now : Str) (a : Album) (photos : List Photo) (file : Str) :
    photos.foldl (writeStep now a) { writtenHeader := true, file := file }
      = { writtenHeader := true,
          file := file ++ (photos.map (fun q => line q ++ ['\n'])).flatten } := by
  induction photos generalizing file with
  | nil => simp
  | cons p ps ih =>
    simp only [List.foldl_cons, writeStep, Bool.not_true, Bool.false_eq_true, if_false]
    rw [ih]
    simp

/-- C4, amended: for every album and every non-empty list of photos the text
written to the album file is one header block, carrying the date, the title,
the HTML-escaped description and the "m" URL of the first photo, followed by
one gallery_image directive line per photo in the order of the list, also for
a photo whose medium or large reference is empty. -/
theorem writeAlbumFile_text (lowerU : Char → Char) (now ext : Str) (a : Album) (p : Photo)
    (ps : List Photo) :
    (writeAlbumFile lowerU now a (p :: ps) ext).2
        = header now a p ++ ['\n'] ++ ((p :: ps).map (fun q => line q ++ ['\n'])).flatten
    ∧ header now a p
        = "+++\ndate = '".toList ++ now ++ "'\ndraft = false\ntitle = '".toList ++ a.Title
          ++ "'\ndescription = '".toList ++ htmlEscape a.Description
          ++ "'\nimage = '".toList ++ p.M_URL ++ "'\n+++".toList
    ∧ ∀ q ∈ p :: ps, line q
        = galleryImage (escapeQuotes (imageCaption q)) (resolveSizes q).1 (resolveSizes q).2
            q.O_URL := by
  refine ⟨?_, rfl, fun q _ => rfl⟩
  simp only [writeAlbumFile, List.foldl_cons, writeStep, Bool.not_false, if_true]
  rw [foldl_writeStep_written]
  simp

/-- C4 as stated fails for the empty list of photos: nothing is written to the
album file, so its text is not a header block. -/
theorem writeAlbumFile_no_photos_no_header :
    (writeAlbumFile id "2024-05-01T10:00:00Z".toList tripAlbum [] "md".toList).2 = []
    ∧ ¬ ∃ p : Photo, (writeAlbumFile id "2024-05-01T10:00:00Z".toList tripAlbum [] "md".toList).2
        = header "2024-05-01T10:00:00Z".toList tripAlbum p ++ ['\n'] := by
  refine ⟨rfl, ?_⟩
  rintro ⟨p, hp⟩
  have h0 : (writeAlbumFile id "2024-05-01T10:00:00Z".toList tripAlbum [] "md".toList).2 = [] := rfl
  rw [h0] at hp
  exact absurd hp.symm (by simp)

end FlickrAlbums

/-! ## Tags (tagged-photo export) -/

namespace Flickr2Galleries

open GoStrings

theorem foldl_quoted (quote : Str → Str) (tagList : List Str) (acc : List Str) :
    tagList.foldl (fun quotedTags t => if t ≠ [] then quotedTags ++ [quote t] else quotedTags) acc
      = acc ++ (tagList.filter (fun t => decide (t ≠ []))).map quote := by
  induction tagList generalizing acc with
  | nil => simp
  | cons t ts ih =>
    rw [List.foldl_cons, ih]
    by_cases ht : t = []
    · simp [ht]
    · simp [ht]

theorem quotedTags_eq (quote : Str → Str) (raw : Str) :
    quotedTags quote raw = (Spec.tagPieces (trimSpace raw)).map quote := by
  unfold quotedTags Spec.tagPieces
  rw [foldl_quoted]
  rfl

/-- C6, the code at a tag string of one space: the photo has no tag, its tag
list is empty, and `writeMarkdown` still writes a document for it, with
`tags: []`, on every host on which `os.Stat` and `ioutil.WriteFile` do not
fail at `dusk.md`; only a photo whose raw tag string is empty is skipped. -/
theorem writeMarkdown_blank_tag_string (lowerU : Char → Char) (quote : Str → Str)
    (join : Str → Str → Str) (now outDir : Str) (fuel : Nat) :
    quotedTags quote " ".toList = []
    ∧ Spec.tagPieces " ".toList = []
    ∧ (∀ host : Host, host.statFails (join outDir "dusk.md".toList) = false →
        host.writeFails (join outDir "dusk.md".toList) = false →
        writeMarkdown host lowerU quote join now (fuel + 1) outDir []
            (photoTagged "7".toList "Dusk".toList " ".toList)
          = some (Written.ok [(join outDir "dusk.md".toList,
              "---\ntitle: \"Dusk\"\ndate: ".toList ++ now
                ++ "\nflickr_id: 7\ntags: []\nthumbnail: \nimage: \n---\n\n\n".toList)]))
    ∧ writeMarkdown quietHost lowerU quote join now (fuel + 1) outDir []
          (photoTagged "7".toList "Dusk".toList " ".toList)
        = some (Written.ok [(join outDir "dusk.md".toList,
            "---\ntitle: \"Dusk\"\ndate: ".toList ++ now
              ++ "\nflickr_id: 7\ntags: []\nthumbnail: \nimage: \n---\n\n\n".toList)])
    ∧ ∀ (host : Host) (fs : FS) (p : Photo), p.Tags = [] →
        writeMarkdown host lowerU quote join now fuel outDir fs p = some (Written.ok fs) := by
  have hq : quotedTags quote " ".toList = [] := rfl
  have hgen : ∀ host : Host, host.statFails (join outDir "dusk.md".toList) = false →
      host.writeFails (join outDir "dusk.md".toList) = false →
      writeMarkdown host lowerU quote join now (fuel + 1) outDir []
          (photoTagged "7".toList "Dusk".toList " ".toList)
        = some (Written.ok [(join outDir "dusk.md".toList,
            "---\ntitle: \"Dusk\"\ndate: ".toList ++ now
              ++ "\nflickr_id: 7\ntags: []\nthumbnail: \nimage: \n---\n\n\n".toList)]) := by
    intro host hstat hwrite
    have hslug : sanitizeSlug lowerU "Dusk".toList = "dusk".toList := rfl
    have he : escapeQuotes "Dusk".toList = "Dusk".toList := by decide
    simp only [writeMarkdown, photoTagged, hslug, hq, he, uniqueLoop, statIsNotExist, fileExists,
      writeFile, content, chooseThumbnail, chooseImage, GoStrings.join]
    have hs : host.statFails (join outDir ['d', 'u', 's', 'k', '.', 'm', 'd']) = false := hstat
    have hw : host.writeFails (join outDir ['d', 'u', 's', 'k', '.', 'm', 'd']) = false := hwrite
    simp [hs, hw]
  refine ⟨hq, by decide, hgen, hgen quietHost rfl rfl, ?_⟩
  intro host fs p hp
  simp [writeMarkdown, hp]

end Flickr2Galleries

namespace Flickr2Galleries

open GoStrings

/-- C7, amended: the tag list of a written document is the list of pieces
obtained by splitting the raw tag string, with its leading and trailing white
space removed, on the space character and dropping the empty pieces, in their
order, each piece quoted and the pieces joined by ", ". No empty tag appears;
the tag string "a  b" gives the tags "a" and "b". -/
theorem tags_of_trimmed_tag_string (quote : Str → Str) (date : Str) (p : Photo) :
    quotedTags quote p.Tags
        = ((split (trimSpace p.Tags) ' ').filter (fun t => decide (t ≠ []))).map quote
    ∧ content quote date p
        = "---\ntitle: \"".toList ++ escapeQuotes p.Title ++ "\"\ndate: ".toList ++ date
          ++ "\nflickr_id: ".toList ++ p.ID ++ "\ntags: [".toList
          ++ join (((split (trimSpace p.Tags) ' ').filter (fun t => decide (t ≠ []))).map quote)
              ", ".toList
          ++ "]\nthumbnail: ".toList ++ chooseThumbnail p ++ "\nimage: ".toList ++ chooseImage p
          ++ "\n---\n\n".toList ++ p.Description ++ ['\n']
    ∧ [] ∉ (split (trimSpace p.Tags) ' ').filter (fun t => decide (t ≠ []))
    ∧ quotedTags quote "a  b".toList = [quote "a".toList, quote "b".toList]
    ∧ join (quotedTags quote "a  b".toList) ", ".toList
        = quote "a".toList ++ ", ".toList ++ quote "b".toList := by
  have h := quotedTags_eq quote p.Tags
  unfold Spec.tagPieces at h
  have hab : quotedTags quote "a  b".toList = [quote "a".toList, quote "b".toList] := rfl
  refine ⟨h, ?_, ?_, hab, ?_⟩
  · unfold content
    rw [h]
  · simp
  · rw [hab]
    rfl

/-- C7 as stated fails for the tag string "a\n": the code trims the line feed
and gives the tag "a", the raw string split on spaces gives the piece "a\n";
no injective quoting makes the two lists equal. -/
theorem tags_of_raw_tag_string_differ :
    ¬ ∃ quote : Str → Str, Function.Injective quote
        ∧ quotedTags quote "a\n".toList = (Spec.tagPieces "a\n".toList).map quote := by
  rintro ⟨quote, hinj, h⟩
  have h1 : quotedTags quote "a\n".toList = [quote "a".toList] := rfl
  have h2 : (Spec.tagPieces "a\n".toList).map quote = [quote "a\n".toList] := rfl
  rw [h1, h2] at h
  have h3 : "a".toList = "a\n".toList := hinj (List.head_eq_of_cons_eq h)
  exact absurd h3 (by decide)

end Flickr2Galleries

/-! ## File names of the album export -/

namespace Spec

theorem splitByLoop_acc (R : Char → Char → Bool) (l : Str) (a : Char) (g : Str)
    (gs : List Str) :
    List.splitBy.loop R l a g gs = gs.reverse ++ List.splitBy.loop R l a g [] := by
  induction l generalizing a g gs with
  | nil => simp [List.splitBy.loop]
  | cons b l ih =>
    simp only [List.splitBy.loop]
    cases R a b with
    | true => exact ih b (a :: g) gs
    | false =>
      simp only
      rw [ih b [] ((a :: g).reverse :: gs), ih b [] [(a :: g).reverse]]
      simp

theorem squeeze_splitByLoop (bad : Char → Bool) (h : Char) (l : Str) :
    ∀ (a : Char) (g : Str),
      (bad a = true → (∀ x ∈ g, bad x = true) →
        ((List.splitBy.loop (fun a b => bad a && bad b) l a g []).map
          (fun run => if run.all bad then [h] else run)).flatten
          = h :: squeezeFrom bad h true l)
      ∧ (bad a = false →
        ((List.splitBy.loop (fun a b => bad a && bad b) l a [] []).map
          (fun run => if run.all bad then [h] else run)).flatten
          = a :: squeezeFrom bad h false l) := by
  induction l with
  | nil =>
    intro a g
    constructor
    · intro ha hg
      have hall : (g.reverse ++ [a]).all bad = true := by
        simp [List.all_eq_true]
        exact ⟨hg, ha⟩
      simp only [List.splitBy.loop, List.reverse_cons, List.reverse_nil, List.nil_append,
        List.map_cons, List.map_nil, List.flatten_cons, List.flatten_nil, hall, if_true,
        squeezeFrom, List.append_nil]
    · intro ha
      simp [List.splitBy.loop, squeezeFrom, ha]
  | cons b l ih =>
    intro a g
    constructor
    · intro ha hg
      simp only [List.splitBy.loop, ha, Bool.true_and]
      cases hb : bad b with
      | true =>
        simp only
        rw [(ih b (a :: g)).1 hb (by
          intro x hx
          rcases List.mem_cons.mp hx with hx | hx
          · rw [hx]; exact ha
          · exact hg x hx)]
        simp [squeezeFrom, hb]
      | false =>
        simp only
        rw [splitByLoop_acc]
        have hall : (g.reverse ++ [a]).all bad = true := by
          simp [List.all_eq_true]
          exact ⟨hg, ha⟩
        simp only [List.reverse_cons, List.reverse_nil, List.nil_append, List.singleton_append,
          List.map_cons, List.flatten_cons, hall, if_true]
        rw [(ih b []).2 hb]
        simp [squeezeFrom, hb]
    · intro ha
      simp only [List.splitBy.loop, ha, Bool.false_and]
      rw [splitByLoop_acc]
      cases hb : bad b with
      | true =>
        simp only [List.reverse_cons, List.reverse_nil, List.nil_append, List.singleton_append,
          List.map_cons, List.flatten_cons]
        rw [(ih b []).1 hb (by simp)]
        simp [squeezeFrom, hb, ha]
      | false =>
        simp only [List.reverse_cons, List.reverse_nil, List.nil_append, List.singleton_append,
          List.map_cons, List.flatten_cons]
        rw [(ih b []).2 hb]
        simp [squeezeFrom, hb, ha]

theorem squeezeRuns_eq_squeezeFrom (bad : Char → Bool) (h : Char) (s : Str) :
    squeezeRuns bad h s = squeezeFrom bad h false s := by
  cases s with
  | nil => simp [squeezeRuns, squeezeFrom, List.splitBy]
  | cons a l =>
    unfold squeezeRuns
    simp only [List.splitBy]
    cases ha : bad a with
    | true =>
      rw [(squeeze_splitByLoop bad h l a []).1 ha (by simp)]
      simp [squeezeFrom, ha]
    | false =>
      rw [(squeeze_splitByLoop bad h l a []).2 ha]
      simp [squeezeFrom, ha]

end Spec

namespace GoStrings

theorem mem_of_mem_trim {s cutset : Str} {c : Char} (h : c ∈ trim s cutset) : c ∈ s := by
  unfold trim at h
  exact (List.rdropWhile_prefix _ _).subset ((List.dropWhile_sublist _).subset h)

theorem head?_trim (s cutset : Str) (c : Char) (hc : c ∈ cutset) :
    (trim s cutset).head? ≠ some c := by
  intro h
  have h' := List.head?_dropWhile_not (fun r => decide (r ∈ cutset))
    (s.rdropWhile (fun r => decide (r ∈ cutset)))
  unfold trim at h
  rw [h] at h'
  simp at h'
  exact h' hc

theorem getLast?_trim (s cutset : Str) (c : Char) (hc : c ∈ cutset) :
    (trim s cutset).getLast? ≠ some c := by
  intro h
  have hne : trim s cutset ≠ [] := by
    intro h0
    rw [h0] at h
    simp at h
  have hsuf : trim s cutset <:+ s.rdropWhile (fun r => decide (r ∈ cutset)) :=
    List.dropWhile_suffix _
  have hne' : s.rdropWhile (fun r => decide (r ∈ cutset)) ≠ [] := by
    intro h0
    rw [h0] at hsuf
    exact hne (List.eq_nil_of_suffix_nil hsuf)
  have hlast := List.rdropWhile_last_not (fun r => decide (r ∈ cutset)) s hne'
  rw [← hsuf.getLast hne] at hlast
  rw [List.getLast?_eq_getLast _ hne] at h
  have hc' : (trim s cutset).getLast hne = c := Option.some.inj h
  rw [hc'] at hlast
  simp at hlast
  exact hlast hc

end GoStrings

namespace Spec

theorem mem_squeezeFrom {bad : Char → Bool} {h : Char} {b : Bool} {s : Str} {c : Char}
    (hc : c ∈ squeezeFrom bad h b s) : c = h ∨ (c ∈ s ∧ bad c = false) := by
  induction s generalizing b with
  | nil => simp [squeezeFrom] at hc
  | cons x xs ih =>
    unfold squeezeFrom at hc
    by_cases hx : bad x = true
    · rw [if_pos hx] at hc
      rcases List.mem_append.mp hc with h1 | h1
      · left
        cases b <;> simp at h1
        exact h1
      · rcases ih h1 with h2 | ⟨h2, h3⟩
        · exact Or.inl h2
        · exact Or.inr ⟨List.mem_cons_of_mem _ h2, h3⟩
    · rw [if_neg hx] at hc
      rcases List.mem_cons.mp hc with h1 | h1
      · right
        rw [h1]
        exact ⟨List.mem_cons_self _ _, by simpa using hx⟩
      · rcases ih h1 with h2 | ⟨h2, h3⟩
        · exact Or.inl h2
        · exact Or.inr ⟨List.mem_cons_of_mem _ h2, h3⟩

end Spec

namespace FlickrAlbums

open GoStrings

theorem reReplaceAllString_eq_squeezeFrom (b : Bool) (s : Str) :
    reReplaceAllString ['-'] b s = Spec.squeezeFrom (fun r => !isFilenameChar r) '-' b s := by
  induction s generalizing b with
  | nil => simp [reReplaceAllString, Spec.squeezeFrom]
  | cons c cs ih =>
    unfold reReplaceAllString Spec.squeezeFrom
    rw [ih, ih]
    by_cases hc : isFilenameChar c = true
    · simp [hc]
    · simp [hc]

/-- C10: the album file is named `sanitizeFilename(title)`, a dot and the
extension; `sanitizeFilename` gives the lower-cased title with every maximal
run of characters outside `[a-z0-9-_]` replaced by one hyphen and the leading
and trailing hyphens removed, so the name holds only a-z, 0-9, '-' and '_' and
neither begins nor ends with '-'. -/
theorem album_file_name (lowerU : Char → Char) (now ext : Str) (a : Album)
    (photos : List Photo) :
    (writeAlbumFile lowerU now a photos ext).1 = sanitizeFilename lowerU a.Title ++ ['.'] ++ ext
    ∧ sanitizeFilename lowerU a.Title = Spec.filename lowerU a.Title
    ∧ (∀ c ∈ sanitizeFilename lowerU a.Title,
        ('a' ≤ c ∧ c ≤ 'z') ∨ ('0' ≤ c ∧ c ≤ '9') ∨ c = '-' ∨ c = '_')
    ∧ (sanitizeFilename lowerU a.Title).head? ≠ some '-'
    ∧ (sanitizeFilename lowerU a.Title).getLast? ≠ some '-' := by
  refine ⟨rfl, ?_, ?_, ?_, ?_⟩
  · show trim (reReplaceAllString ['-'] false (toLower lowerU a.Title)) ['-'] = _
    unfold Spec.filename
    rw [Spec.squeezeRuns_eq_squeezeFrom, reReplaceAllString_eq_squeezeFrom]
  · intro c hc
    have h1 : c ∈ reReplaceAllString ['-'] false (toLower lowerU a.Title) :=
      mem_of_mem_trim hc
    rw [reReplaceAllString_eq_squeezeFrom] at h1
    rcases Spec.mem_squeezeFrom h1 with h2 | ⟨_, h3⟩
    · exact Or.inr (Or.inr (Or.inl h2))
    · have h4 : isFilenameChar c = true := by simpa using h3
      unfold isFilenameChar at h4
      simp only [Bool.or_eq_true, Bool.and_eq_true, decide_eq_true_eq] at h4
      tauto
  · exact head?_trim _ _ _ (by simp)
  · exact getLast?_trim _ _ _ (by simp)

end FlickrAlbums

/-! ## Slugs of the tagged-photo export -/

namespace GoStrings

theorem contains_cons (c : Char) (t substr : Str) :
    contains (c :: t) substr = (substr.isPrefixOf (c :: t) || contains t substr) := by
  simp [contains]

theorem contains_nil_left (x y : Char) : contains [] [x, y] = false := by
  simp [contains, List.isPrefixOf]

theorem contains_iff_infix (s substr : Str) : contains s substr = true ↔ substr <:+: s := by
  unfold contains
  rw [List.any_eq_true, List.infix_iff_prefix_suffix]
  constructor
  · rintro ⟨t, ht, hp⟩
    exact ⟨t, List.isPrefixOf_iff_prefix.mp hp, (List.mem_tails _ _).mp ht⟩
  · rintro ⟨t, hp, ht⟩
    exact ⟨t, (List.mem_tails _ _).mpr ht, List.isPrefixOf_iff_prefix.mpr hp⟩

theorem isPrefixOf_dashes (c : Char) (t : Str) :
    List.isPrefixOf ['-', '-'] (c :: t) = true ↔ c = '-' ∧ ∃ t', t = '-' :: t' := by
  cases t with
  | nil => simp [List.isPrefixOf]
  | cons x xs =>
    simp [List.isPrefixOf]
    constructor
    · rintro ⟨h1, h2⟩
      exact ⟨h1.symm, h2.symm⟩
    · rintro ⟨h1, h2⟩
      exact ⟨h1.symm, h2.symm⟩

theorem replaceAll_dashes_pair (t : Str) :
    replaceAll ('-' :: '-' :: t) ['-', '-'] ['-'] = '-' :: replaceAll t ['-', '-'] ['-'] := by
  simp [replaceAll, replaceAllAux, List.isPrefixOf]

theorem replaceAll_dashes_other (c : Char) (t : Str)
    (h : List.isPrefixOf ['-', '-'] (c :: t) = false) :
    replaceAll (c :: t) ['-', '-'] ['-'] = c :: replaceAll t ['-', '-'] ['-'] := by
  simp only [replaceAll, replaceAllAux, h]
  simp

end GoStrings

namespace Flickr2Galleries

open GoStrings Spec

theorem squeezeFrom_replaceAll (n : Nat) :
    ∀ (s : Str), s.length ≤ n → ∀ b : Bool,
      squeezeFrom (fun r => decide (r = '-')) '-' b (replaceAll s ['-', '-'] ['-'])
        = squeezeFrom (fun r => decide (r = '-')) '-' b s := by
  induction n with
  | zero =>
    intro s hs b
    have : s = [] := List.length_eq_zero.mp (Nat.le_zero.mp hs)
    subst this
    rfl
  | succ n ih =>
    intro s hs b
    cases s with
    | nil => rfl
    | cons c t =>
      cases hp : List.isPrefixOf ['-', '-'] (c :: t) with
      | true =>
        obtain ⟨hc, t', ht⟩ := (isPrefixOf_dashes c t).mp hp
        subst hc
        subst ht
        rw [replaceAll_dashes_pair]
        have hlen : t'.length ≤ n := by
          simp only [List.length_cons] at hs
          omega
        simp only [squeezeFrom, decide_True, if_true]
        rw [ih t' hlen true]
        simp
      | false =>
        rw [replaceAll_dashes_other c t hp]
        have hlen : t.length ≤ n := by
          simp only [List.length_cons] at hs
          omega
        simp only [squeezeFrom]
        rw [ih t hlen true, ih t hlen false]

theorem length_replaceAll (n : Nat) :
    ∀ (s : Str), s.length ≤ n →
      (replaceAll s ['-', '-'] ['-']).length ≤ s.length
      ∧ (contains s ['-', '-'] = true → (replaceAll s ['-', '-'] ['-']).length < s.length) := by
  induction n with
  | zero =>
    intro s hs
    have : s = [] := List.length_eq_zero.mp (Nat.le_zero.mp hs)
    subst this
    simp [replaceAll, replaceAllAux, contains_nil_left]
  | succ n ih =>
    intro s hs
    cases s with
    | nil => simp [replaceAll, replaceAllAux, contains_nil_left]
    | cons c t =>
      cases hp : List.isPrefixOf ['-', '-'] (c :: t) with
      | true =>
        obtain ⟨hc, t', ht⟩ := (isPrefixOf_dashes c t).mp hp
        subst hc
        subst ht
        rw [replaceAll_dashes_pair]
        have hlen : t'.length ≤ n := by
          simp only [List.length_cons] at hs
          omega
        have h1 := (ih t' hlen).1
        simp only [List.length_cons]
        constructor
        · omega
        · intro _
          omega
      | false =>
        rw [replaceAll_dashes_other c t hp]
        have hlen : t.length ≤ n := by
          simp only [List.length_cons] at hs
          omega
        have h1 := ih t hlen
        simp only [List.length_cons]
        constructor
        · omega
        · intro hc
          rw [contains_cons, hp, Bool.false_or] at hc
          have := h1.2 hc
          omega

theorem squeezeFrom_of_not_contains (s : Str) :
    ∀ b : Bool, contains s ['-', '-'] = false → (b = true → s.head? ≠ some '-') →
      squeezeFrom (fun r => decide (r = '-')) '-' b s = s := by
  induction s with
  | nil => intro b _ _; rfl
  | cons c t ih =>
    intro b hc hb
    rw [contains_cons, Bool.or_eq_false_iff] at hc
    by_cases hd : c = '-'
    · subst hd
      have hbf : b = false := by
        cases b
        · rfl
        · exact absurd rfl (hb rfl)
      subst hbf
      have hhead : t.head? ≠ some '-' := by
        intro h
        cases t with
        | nil => simp at h
        | cons x xs =>
          simp at h
          subst h
          simp [List.isPrefixOf] at hc
      simp only [squeezeFrom, decide_True, if_true, Bool.false_eq_true, if_false]
      rw [ih true hc.2 (fun _ => hhead)]
      simp
    · simp only [squeezeFrom, hd, decide_False, Bool.false_eq_true, if_false]
      rw [ih false hc.2 (fun h => absurd h (by simp))]

theorem collapseLoop_eq_squeezeFrom (fuel : Nat) :
    ∀ s : Str, s.length ≤ fuel →
      collapseLoop fuel s = squeezeFrom (fun r => decide (r = '-')) '-' false s := by
  induction fuel with
  | zero =>
    intro s hs
    have : s = [] := List.length_eq_zero.mp (Nat.le_zero.mp hs)
    subst this
    rfl
  | succ fuel ih =>
    intro s hs
    unfold collapseLoop
    cases hc : contains s ['-', '-'] with
    | true =>
      simp only [if_true]
      have hlt := (length_replaceAll s.length s le_rfl).2 hc
      rw [ih _ (by omega), squeezeFrom_replaceAll s.length s le_rfl]
    | false =>
      simp only [Bool.false_eq_true, if_false]
      exact (squeezeFrom_of_not_contains s false hc (fun h => absurd h (by simp))).symm

end Flickr2Galleries

namespace Spec

open GoStrings

theorem squeezeFrom_cons_bad (bad : Char → Bool) (h : Char) (b : Bool) (c : Char) (t : Str)
    (hc : bad c = true) :
    squeezeFrom bad h b (c :: t) = (if b then [] else [h]) ++ squeezeFrom bad h true t := by
  simp [squeezeFrom, hc]

theorem squeezeFrom_cons_ok (bad : Char → Bool) (h : Char) (b : Bool) (c : Char) (t : Str)
    (hc : bad c = false) :
    squeezeFrom bad h b (c :: t) = c :: squeezeFrom bad h false t := by
  simp [squeezeFrom, hc]

theorem dropWhile_squeezeFrom (bad : Char → Bool) (h : Char) (hh : bad h = true) (s : Str) :
    ∀ b : Bool, (squeezeFrom bad h b s).dropWhile bad = squeezeFrom bad h false (s.dropWhile bad) := by
  induction s with
  | nil => intro b; rfl
  | cons c t ih =>
    intro b
    cases hc : bad c with
    | true =>
      rw [squeezeFrom_cons_bad _ _ _ _ _ hc, List.dropWhile_cons, hc, if_pos rfl]
      cases b
      · simp only [Bool.false_eq_true, if_false, List.singleton_append, List.dropWhile_cons, hh,
          if_true]
        exact ih true
      · simp only [if_true, List.nil_append]
        exact ih true
    | false =>
      rw [squeezeFrom_cons_ok _ _ _ _ _ hc, List.dropWhile_cons, hc, List.dropWhile_cons, hc]
      simp only [Bool.false_eq_true, if_false]
      rw [squeezeFrom_cons_ok _ _ _ _ _ hc]

theorem squeezeFrom_concat (bad : Char → Bool) (h : Char) (s : Str) (x : Char) :
    ∀ b : Bool,
      (bad x = true →
        squeezeFrom bad h b (s ++ [x]) = squeezeFrom bad h b s
        ∨ squeezeFrom bad h b (s ++ [x]) = squeezeFrom bad h b s ++ [h])
      ∧ (bad x = false → squeezeFrom bad h b (s ++ [x]) = squeezeFrom bad h b s ++ [x]) := by
  induction s with
  | nil =>
    intro b
    constructor
    · intro hx
      cases b <;> simp [squeezeFrom, hx]
    · intro hx
      simp [squeezeFrom, hx]
  | cons c t ih =>
    intro b
    cases hc : bad c with
    | true =>
      rw [List.cons_append, squeezeFrom_cons_bad _ _ _ _ _ hc, squeezeFrom_cons_bad _ _ _ _ _ hc]
      constructor
      · intro hx
        rcases (ih true).1 hx with h1 | h1
        · left; rw [h1]
        · right; rw [h1, List.append_assoc]
      · intro hx
        rw [(ih true).2 hx, List.append_assoc]
    | false =>
      rw [List.cons_append, squeezeFrom_cons_ok _ _ _ _ _ hc, squeezeFrom_cons_ok _ _ _ _ _ hc]
      constructor
      · intro hx
        rcases (ih false).1 hx with h1 | h1
        · left; rw [h1]
        · right; rw [h1, List.cons_append]
      · intro hx
        rw [(ih false).2 hx, List.cons_append]

theorem rdropWhile_squeezeFrom (bad : Char → Bool) (h : Char) (hh : bad h = true) (b : Bool)
    (s : Str) :
    (squeezeFrom bad h b s).rdropWhile bad = squeezeFrom bad h b (s.rdropWhile bad) := by
  induction s using List.reverseRecOn with
  | nil => simp [squeezeFrom]
  | append_singleton t x ih =>
    by_cases hx : bad x = true
    · rw [List.rdropWhile_concat_pos _ _ _ hx, ← ih]
      rcases (squeezeFrom_concat bad h t x b).1 hx with h1 | h1
      · rw [h1]
      · rw [h1, List.rdropWhile_concat_pos _ _ _ hh]
    · rw [List.rdropWhile_concat_neg _ _ _ hx]
      rw [(squeezeFrom_concat bad h t x b).2 (by simpa using hx)]
      rw [List.rdropWhile_concat_neg _ _ _ hx]

theorem head?_squeezeFrom_true (s : Str) :
    (squeezeFrom (fun r => decide (r = '-')) '-' true s).head? ≠ some '-' := by
  induction s with
  | nil => simp [squeezeFrom]
  | cons c t ih =>
    by_cases hc : c = '-'
    · simpa [squeezeFrom, hc] using ih
    · simp [squeezeFrom, hc]

theorem not_contains_squeezeFrom (s : Str) :
    ∀ b : Bool, contains (squeezeFrom (fun r => decide (r = '-')) '-' b s) ['-', '-'] = false := by
  induction s with
  | nil => intro b; simp [squeezeFrom, contains_nil_left]
  | cons c t ih =>
    intro b
    by_cases hc : c = '-'
    · cases b
      · simp only [squeezeFrom, hc, decide_True, if_true, Bool.false_eq_true, if_false,
          List.singleton_append]
        rw [contains_cons, ih true, Bool.or_false]
        cases hp : List.isPrefixOf ['-', '-']
            ('-' :: squeezeFrom (fun r => decide (r = '-')) '-' true t) with
        | false => rfl
        | true =>
          obtain ⟨_, t', ht⟩ := (isPrefixOf_dashes _ _).mp hp
          have := head?_squeezeFrom_true t
          rw [ht] at this
          simp at this
      · simp only [squeezeFrom, hc, decide_True, if_true, List.nil_append]
        exact ih true
    · simp only [squeezeFrom, hc, decide_False, Bool.false_eq_true, if_false]
      rw [contains_cons, ih false, Bool.or_false]
      cases hp : List.isPrefixOf ['-', '-']
          (c :: squeezeFrom (fun r => decide (r = '-')) '-' false t) with
      | false => rfl
      | true => exact absurd ((isPrefixOf_dashes _ _).mp hp).1 hc

end Spec

namespace Flickr2Galleries

open GoStrings Spec

theorem sanitizeSlug_eq_squeezeFrom (lowerU : Char → Char) (title : Str) :
    sanitizeSlug lowerU title
      = squeezeFrom (fun r => decide (r = '-')) '-' false
          (trim ((toLower lowerU title).map (fun r => if isSlugRune r then r else '-')) ['-']) :=
  collapseLoop_eq_squeezeFrom _ _ le_rfl

/-- C3: `sanitizeSlug` returns the lower-cased title with every character
outside `[a-z0-9]` replaced by a hyphen, every run of hyphens collapsed to one
hyphen and the leading and trailing hyphens removed. The result holds only
characters of `[a-z0-9-]`, does not contain "--" and neither begins nor ends
with "-"; "My Trip, Part 2!!" gives "my-trip-part-2". The collapsing loop has
ended by then: any larger number of rounds gives the same slug. -/
theorem sanitizeSlug_spec (lowerU : Char → Char) (title : Str) :
    sanitizeSlug lowerU title = Spec.slug lowerU title
    ∧ (∀ c ∈ sanitizeSlug lowerU title, ('a' ≤ c ∧ c ≤ 'z') ∨ ('0' ≤ c ∧ c ≤ '9') ∨ c = '-')
    ∧ ¬ ['-', '-'] <:+: sanitizeSlug lowerU title
    ∧ (sanitizeSlug lowerU title).head? ≠ some '-'
    ∧ (sanitizeSlug lowerU title).getLast? ≠ some '-'
    ∧ sanitizeSlug lowerU "My Trip, Part 2!!".toList = "my-trip-part-2".toList
    ∧ (∀ fuel,
        (trim ((toLower lowerU title).map (fun r => if isSlugRune r then r else '-'))
          ['-']).length ≤ fuel →
        collapseLoop fuel
            (trim ((toLower lowerU title).map (fun r => if isSlugRune r then r else '-')) ['-'])
          = sanitizeSlug lowerU title) := by
  have hcut : (fun r : Char => decide (r ∈ ['-'])) = (fun r => decide (r = '-')) := by
    funext r
    simp
  have hspec : sanitizeSlug lowerU title = Spec.slug lowerU title := by
    rw [sanitizeSlug_eq_squeezeFrom]
    unfold Spec.slug
    rw [squeezeRuns_eq_squeezeFrom]
    unfold trim
    rw [hcut, rdropWhile_squeezeFrom _ _ (by simp), dropWhile_squeezeFrom _ _ (by simp)]
  refine ⟨hspec, ?_, ?_, ?_, ?_, rfl, ?_⟩
  rotate_right
  · intro fuel hfuel
    rw [collapseLoop_eq_squeezeFrom fuel _ hfuel, sanitizeSlug_eq_squeezeFrom]
  · intro c hc
    rw [sanitizeSlug_eq_squeezeFrom] at hc
    rcases mem_squeezeFrom hc with h1 | ⟨h1, _⟩
    · exact Or.inr (Or.inr h1)
    · have h2 := mem_of_mem_trim h1
      obtain ⟨r, _, hr⟩ := List.mem_map.mp h2
      by_cases hs : isSlugRune r = true
      · rw [if_pos hs] at hr
        subst hr
        unfold isSlugRune at hs
        simp only [Bool.or_eq_true, Bool.and_eq_true, decide_eq_true_eq, ge_iff_le] at hs
        tauto
      · rw [if_neg hs] at hr
        exact Or.inr (Or.inr hr.symm)
  · rw [← contains_iff_infix, sanitizeSlug_eq_squeezeFrom, not_contains_squeezeFrom]
    simp
  · rw [hspec]
    exact head?_trim _ _ _ (by simp)
  · rw [hspec]
    exact getLast?_trim _ _ _ (by simp)

end Flickr2Galleries

/-! ## Paging of the tagged-photo export -/

theorem wrap64_of_small (x : Int) (h0 : 0 ≤ x) (h1 : x < 9223372036854775808) :
    wrap64 x = x := by
  unfold wrap64
  omega

namespace Flickr2Galleries

end Flickr2Galleries

namespace Flickr2Galleries

end Flickr2Galleries

/-! ## Unique file names of the tagged-photo export -/

namespace Spec

theorem toNat_digitChar (k : Nat) (hk : k < 10) : (Nat.digitChar k).toNat - 48 = k := by
  interval_cases k <;> rfl

theorem decimal_toDigitsCore (fuel : Nat) :
    ∀ (n : Nat) (ds : Str), n < fuel →
      (Nat.toDigitsCore 10 fuel n ds).foldl (fun acc c => 10 * acc + (c.toNat - 48)) 0
        = ds.foldl (fun acc c => 10 * acc + (c.toNat - 48)) n := by
  induction fuel with
  | zero => intro n ds h; omega
  | succ fuel ih =>
    intro n ds h
    unfold Nat.toDigitsCore
    by_cases h0 : n / 10 = 0
    · simp only [h0, if_true, List.foldl_cons]
      rw [toNat_digitChar _ (Nat.mod_lt _ (by norm_num))]
      congr 1
      omega
    · simp only [h0, if_false]
      rw [ih (n / 10) _ (by omega)]
      simp only [List.foldl_cons]
      rw [toNat_digitChar _ (Nat.mod_lt _ (by norm_num))]
      congr 1
      omega

theorem decimalValue_repr (n : Nat) : decimalValue (Nat.repr n).toList = n := by
  unfold decimalValue Nat.repr Nat.toDigits
  simp only [List.asString, String.toList]
  rw [decimal_toDigitsCore (n + 1) n [] (by omega)]
  rfl

theorem candidate_injective (slug : Str) : Function.Injective (candidate slug) := by
  intro k l h
  cases k with
  | zero =>
    cases l with
    | zero => rfl
    | succ l =>
      simp only [candidate, List.append_assoc] at h
      have := List.append_cancel_left h
      simp at this
  | succ k =>
    cases l with
    | zero =>
      simp only [candidate, List.append_assoc] at h
      have := List.append_cancel_left h
      simp at this
    | succ l =>
      simp only [candidate] at h
      have h1 := List.append_cancel_right h
      have h2 := List.append_cancel_left h1
      have h3 := congrArg decimalValue h2
      rw [decimalValue_repr, decimalValue_repr] at h3
      exact h3

end Spec

namespace Flickr2Galleries

theorem joinPlain_candidate_injective (outDir slug : Str) :
    Function.Injective (fun k => joinPlain outDir (Spec.candidate slug k)) := by
  intro k l h
  simp only [joinPlain] at h
  exact Spec.candidate_injective slug (List.append_cancel_left h)

theorem fileExists_iff (fs : FS) (path : Str) :
    fileExists fs path = true ↔ path ∈ fs.map Prod.fst := by
  simp [fileExists]

theorem exists_free_path (fs : FS) (path : Nat → Str) (hinj : Function.Injective path) :
    ∃ m, m ≤ fs.length ∧ fileExists fs (path m) = false := by
  by_contra hno
  have hall : ∀ m, m ≤ fs.length → fileExists fs (path m) = true := by
    intro m hm
    by_contra h
    exact hno ⟨m, hm, by simpa using h⟩
  have hnodup : ((List.range (fs.length + 1)).map path).Nodup :=
    List.Nodup.map hinj (List.nodup_range _)
  have hsub : (List.range (fs.length + 1)).map path ⊆ fs.map Prod.fst := by
    intro x hx
    obtain ⟨m, hm, rfl⟩ := List.mem_map.mp hx
    exact (fileExists_iff fs (path m)).mp (hall m (by
      have := List.mem_range.mp hm
      omega))
  have hlen := (List.subperm_of_subset hnodup hsub).length_le
  simp at hlen

theorem exists_first_free_path (fs : FS) (path : Nat → Str) (hinj : Function.Injective path) :
    ∃ m, m ≤ fs.length ∧ (∀ j, j < m → fileExists fs (path j) = true)
      ∧ fileExists fs (path m) = false := by
  have hex : ∃ m, fileExists fs (path m) = false := by
    obtain ⟨m, _, hm⟩ := exists_free_path fs path hinj
    exact ⟨m, hm⟩
  obtain ⟨m, hm, hfree⟩ := exists_free_path fs path hinj
  refine ⟨Nat.find hex, le_trans (Nat.find_min' hex hfree) hm, ?_, Nat.find_spec hex⟩
  intro j hj
  have := Nat.find_min hex hj
  simpa using this

theorem statIsNotExist_of_exists (host : Host) (fs : FS) (path : Str)
    (h : fileExists fs path = true) : statIsNotExist host fs path = false := by
  simp [statIsNotExist, h]

theorem statIsNotExist_of_free (host : Host) (fs : FS) (path : Str)
    (hstat : host.statFails path = false) (h : fileExists fs path = false) :
    statIsNotExist host fs path = true := by
  simp [statIsNotExist, h, hstat]

theorem uniqueLoop_finds (host : Host) (join : Str → Str → Str) (fs : FS) (outDir slug : Str)
    (m : Nat) (hm : m + 1 < 2 ^ 63)
    (hbusy : ∀ j, j < m → fileExists fs (join outDir (Spec.candidate slug j)) = true)
    (hfree : fileExists fs (join outDir (Spec.candidate slug m)) = false)
    (hstat : host.statFails (join outDir (Spec.candidate slug m)) = false) :
    ∀ (d j : Nat), j + d = m → ∀ fuel, d < fuel →
      uniqueLoop host join fs outDir slug fuel (join outDir (Spec.candidate slug j))
          (((j + 1 : Nat) : Int))
        = some (join outDir (Spec.candidate slug m)) := by
  intro d
  induction d with
  | zero =>
    intro j hj fuel hfuel
    have : j = m := by omega
    subst this
    obtain ⟨f, rfl⟩ : ∃ f, fuel = f + 1 := ⟨fuel - 1, by omega⟩
    simp [uniqueLoop, statIsNotExist_of_free host fs _ hstat hfree]
  | succ d ih =>
    intro j hj fuel hfuel
    obtain ⟨f, rfl⟩ : ∃ f, fuel = f + 1 := ⟨fuel - 1, by omega⟩
    have hb := statIsNotExist_of_exists host fs _ (hbusy j (by omega))
    have hpow : (2 : Nat) ^ 63 = 9223372036854775808 := by norm_num
    have hwrap : wrap64 (((j + 1 : Nat) : Int) + 1) = ((j + 1 + 1 : Nat) : Int) := by
      rw [wrap64_of_small _ (by omega) (by omega)]
      push_cast
      rfl
    have hfmt : GoStrings.fmtInt ((j + 1 : Nat) : Int) = (Nat.repr (j + 1)).toList := rfl
    unfold uniqueLoop
    simp only [hb, Bool.false_eq_true, if_false, hwrap, hfmt]
    exact ih (j + 1) (by omega) f (by omega)

theorem uniqueLoop_never_ends (host : Host) (join : Str → Str → Str) (fs : FS)
    (outDir slug : Str)
    (hall : ∀ i : Int,
      host.statFails (join outDir (slug ++ ['-'] ++ GoStrings.fmtInt i ++ ".md".toList)) = true) :
    ∀ (fuel : Nat) (uniqueFilename : Str) (i : Int), host.statFails uniqueFilename = true →
      uniqueLoop host join fs outDir slug fuel uniqueFilename i = none := by
  intro fuel
  induction fuel with
  | zero => intro _ _ _; rfl
  | succ fuel ih =>
    intro uniqueFilename i h
    unfold uniqueLoop
    simp only [statIsNotExist, h, Bool.not_true, Bool.false_and, Bool.false_eq_true, if_false]
    exact ih _ _ (hall i)

end Flickr2Galleries

namespace Flickr2Galleries

open GoStrings

theorem writeFile_of_not_exists (host : Host) (fs : FS) (path content : Str)
    (hwrite : host.writeFails path = false) (h : fileExists fs path = false) :
    writeFile host fs path content = Written.ok ((path, content) :: fs) := by
  unfold writeFile
  rw [hwrite]
  simp only [Bool.false_eq_true, if_false]
  congr 2
  rw [List.filter_eq_self]
  intro f hf
  have h' : ¬ (fileExists fs path = true) := by simp [h]
  rw [fileExists_iff] at h'
  have : f.1 ≠ path := by
    intro he
    exact h' (he ▸ List.mem_map_of_mem Prod.fst hf)
  simpa using this

theorem writeMarkdown_of_first_free (host : Host) (lowerU : Char → Char) (quote : Str → Str)
    (join : Str → Str → Str) (now outDir : Str) (fs : FS) (p : Photo) (m : Nat)
    (htags : p.Tags ≠ [])
    (hm : m + 1 < 2 ^ 63)
    (hbusy : ∀ j, j < m →
      fileExists fs (join outDir (Spec.candidate (Spec.photoSlug lowerU p) j)) = true)
    (hfree : fileExists fs (join outDir (Spec.candidate (Spec.photoSlug lowerU p) m)) = false)
    (hstat : host.statFails (join outDir (Spec.candidate (Spec.photoSlug lowerU p) m)) = false)
    (hwrite : host.writeFails (join outDir (Spec.candidate (Spec.photoSlug lowerU p) m)) = false) :
    ∀ fuel, m < fuel →
      writeMarkdown host lowerU quote join now fuel outDir fs p
        = some (Written.ok ((join outDir (Spec.candidate (Spec.photoSlug lowerU p) m),
            content quote (if p.DateTaken = [] then now else p.DateTaken) p) :: fs)) := by
  intro fuel hfuel
  have hloop := uniqueLoop_finds host join fs outDir (Spec.photoSlug lowerU p) m hm hbusy hfree
    hstat m 0 (by omega) fuel hfuel
  unfold writeMarkdown
  rw [if_neg htags]
  have hslug : (if sanitizeSlug lowerU p.Title = [] then p.ID else sanitizeSlug lowerU p.Title)
      = Spec.photoSlug lowerU p := rfl
  have hloop' : uniqueLoop host join fs outDir (Spec.photoSlug lowerU p) fuel
      (join outDir (Spec.photoSlug lowerU p ++ ".md".toList)) 1
      = some (join outDir (Spec.candidate (Spec.photoSlug lowerU p) m)) := hloop
  simp only [hslug, hloop']
  rw [writeFile_of_not_exists _ _ _ _ hwrite hfree]

/-- What `writeMarkdown` does when `os.Stat` and `ioutil.WriteFile` do not fail
on the candidate paths it can reach: for a photo with a non-empty tag string it
writes to `slug.md` when that path does not exist and otherwise to `slug-k.md`
for the smallest `k ≥ 1` whose path does not exist; the path did not exist
before and every file of the directory is kept. -/
theorem writeMarkdown_first_free_path (host : Host) (lowerU : Char → Char) (quote : Str → Str)
    (join : Str → Str → Str) (now outDir : Str) (fs : FS) (p : Photo)
    (htags : p.Tags ≠ [])
    (hjoin : Function.Injective
      (fun k => join outDir (Spec.candidate (Spec.photoSlug lowerU p) k)))
    (hsize : fs.length + 1 < 2 ^ 63)
    (hstat : ∀ k, k ≤ fs.length →
      host.statFails (join outDir (Spec.candidate (Spec.photoSlug lowerU p) k)) = false)
    (hwrite : ∀ k, k ≤ fs.length →
      host.writeFails (join outDir (Spec.candidate (Spec.photoSlug lowerU p) k)) = false) :
    ∃ k, k ≤ fs.length
      ∧ (∀ j, j < k →
          fileExists fs (join outDir (Spec.candidate (Spec.photoSlug lowerU p) j)) = true)
      ∧ fileExists fs (join outDir (Spec.candidate (Spec.photoSlug lowerU p) k)) = false
      ∧ ∀ fuel, fs.length < fuel →
          writeMarkdown host lowerU quote join now fuel outDir fs p
            = some (Written.ok ((join outDir (Spec.candidate (Spec.photoSlug lowerU p) k),
                content quote (if p.DateTaken = [] then now else p.DateTaken) p) :: fs)) := by
  have hpow : (2 : Nat) ^ 63 = 9223372036854775808 := by norm_num
  obtain ⟨m, hmle, hbusy, hfree⟩ := exists_first_free_path fs _ hjoin
  refine ⟨m, hmle, hbusy, hfree, ?_⟩
  intro fuel hfuel
  exact writeMarkdown_of_first_free host lowerU quote join now outDir fs p m htags (by omega)
    hbusy hfree (hstat m hmle) (hwrite m hmle) fuel (by omega)

/-- On the Linux host, a directory that holds `photos/dusk.md`: the photo
titled "Dusk" is written to `photos/dusk-1.md` and the old file is kept. -/
theorem writeMarkdown_second_name :
    writeMarkdown linuxHost id id joinPlain "2024-05-01".toList 2 "photos".toList
        [("photos/dusk.md".toList, "old".toList)]
        (photoTagged "7".toList "Dusk".toList "sky".toList)
      = some (Written.ok [("photos/dusk-1.md".toList,
                "---\ntitle: \"Dusk\"\ndate: 2024-05-01\nflickr_id: 7\ntags: [sky]\nthumbnail: \nimage: \n---\n\n\n".toList),
              ("photos/dusk.md".toList, "old".toList)]) := by
  obtain ⟨k, hk, hbusy, hfree, hrun⟩ :=
    writeMarkdown_first_free_path linuxHost id id joinPlain "2024-05-01".toList "photos".toList
      [("photos/dusk.md".toList, "old".toList)]
      (photoTagged "7".toList "Dusk".toList "sky".toList) (by decide)
      (joinPlain_candidate_injective _ _) (by norm_num)
      (by
        intro k hk
        simp only [List.length_singleton] at hk
        interval_cases k <;> decide)
      (by
        intro k hk
        simp only [List.length_singleton] at hk
        interval_cases k <;> decide)
  have hk1 : k = 1 := by
    simp only [List.length_singleton] at hk
    interval_cases k
    · exact absurd hfree (by decide)
    · rfl
  subst hk1
  exact (hrun 2 (by norm_num)).trans
    (congrArg (fun fs => some (Written.ok fs)) (by decide))

end Flickr2Galleries

namespace Flickr2Galleries

open GoStrings

theorem length_le_byteLength (s : Str) : s.length ≤ byteLength s := by
  induction s with
  | nil => simp [byteLength]
  | cons c cs ih =>
    have hc := Char.utf8Size_pos c
    simp only [byteLength, List.map_cons, List.sum_cons, List.length_cons] at ih ⊢
    omega

theorem lastComponent_joinPlain (outDir name : Str) (h : '/' ∉ name) :
    lastComponent (joinPlain outDir name) = name := by
  unfold lastComponent joinPlain
  have hrev : (outDir ++ ['/'] ++ name).reverse = name.reverse ++ '/' :: outDir.reverse := by
    simp
  rw [hrev, List.takeWhile_append_of_pos]
  · simp [List.takeWhile]
  · intro a ha
    have ha' : a ∈ name := List.mem_reverse.mp ha
    have : a ≠ '/' := fun he => h (he ▸ ha')
    simpa using this

theorem slash_ne_digitChar (k : Nat) (hk : k < 10) : Nat.digitChar k ≠ '/' := by
  interval_cases k <;> decide

theorem slash_not_mem_toDigitsCore (fuel : Nat) :
    ∀ (n : Nat) (ds : Str), '/' ∉ ds → '/' ∉ Nat.toDigitsCore 10 fuel n ds := by
  induction fuel with
  | zero => intro n ds h; simpa [Nat.toDigitsCore] using h
  | succ fuel ih =>
    intro n ds h
    have hd : '/' ∉ Nat.digitChar (n % 10) :: ds := by
      intro hm
      rcases List.mem_cons.mp hm with h1 | h1
      · exact slash_ne_digitChar (n % 10) (Nat.mod_lt _ (by norm_num)) h1.symm
      · exact h h1
    unfold Nat.toDigitsCore
    by_cases h0 : n / 10 = 0
    · simpa only [h0, if_true] using hd
    · simp only [h0, if_false]
      exact ih _ _ hd

theorem slash_not_mem_repr (n : Nat) : '/' ∉ (Nat.repr n).toList := by
  unfold Nat.repr Nat.toDigits
  simp only [List.asString, String.toList]
  exact slash_not_mem_toDigitsCore _ _ _ (by simp)

theorem slash_not_mem_fmtInt (i : Int) : '/' ∉ fmtInt i := by
  cases i with
  | ofNat n => exact slash_not_mem_repr n
  | negSucc n =>
    intro h
    rcases List.mem_cons.mp h with h1 | h1
    · exact absurd h1 (by decide)
    · exact slash_not_mem_repr _ h1

theorem linuxHost_statFails_of_long (outDir name : Str) (h : '/' ∉ name)
    (hlen : 255 < name.length) : linuxHost.statFails (joinPlain outDir name) = true := by
  have hb := length_le_byteLength name
  simp only [linuxHost, lastComponent_joinPlain outDir name h, decide_eq_true_eq]
  omega

/-- C2, the code at a title of 300 letters on a Linux host: the slug is the
title, the file name `aaa...a.md` is longer than 255 bytes, and `os.Stat` fails
on it with an error that is not "does not exist". The path does not exist, yet
the file name loop is not left, the names `aaa...a-1.md`, `aaa...a-2.md`, ...
being too long as well: whatever the files of the directory and whatever the
fuel, `writeMarkdown` does not return and writes nothing. -/
theorem writeMarkdown_long_title_never_returns :
    longTitlePhoto.Tags ≠ []
    ∧ Spec.photoSlug id longTitlePhoto = List.replicate 300 'a'
    ∧ fileExists [] (joinPlain "photos".toList (List.replicate 300 'a' ++ ".md".toList)) = false
    ∧ statIsNotExist linuxHost []
        (joinPlain "photos".toList (List.replicate 300 'a' ++ ".md".toList)) = false
    ∧ ∀ (fs : FS) (fuel : Nat),
        writeMarkdown linuxHost id id joinPlain "2024-05-01".toList fuel "photos".toList fs
          longTitlePhoto = none := by
  have hslug : Spec.photoSlug id longTitlePhoto = List.replicate 300 'a' := by
    set_option maxRecDepth 100000 in decide
  have hmem : ∀ c ∈ List.replicate 300 'a', c ≠ '/' := by
    intro c hc
    rw [List.eq_of_mem_replicate hc]
    decide
  have hfirst : linuxHost.statFails
      (joinPlain "photos".toList (List.replicate 300 'a' ++ ".md".toList)) = true := by
    apply linuxHost_statFails_of_long
    · intro hm
      rcases List.mem_append.mp hm with h1 | h1
      · exact hmem _ h1 rfl
      · exact absurd h1 (by decide)
    · simp only [List.length_append, List.length_replicate]
      omega
  have hall : ∀ i : Int, linuxHost.statFails
      (joinPlain "photos".toList
        (List.replicate 300 'a' ++ ['-'] ++ fmtInt i ++ ".md".toList)) = true := by
    intro i
    apply linuxHost_statFails_of_long
    · intro hm
      rcases List.mem_append.mp hm with h1 | h1
      · rcases List.mem_append.mp h1 with h2 | h2
        · rcases List.mem_append.mp h2 with h3 | h3
          · exact hmem _ h3 rfl
          · exact absurd h3 (by decide)
        · exact slash_not_mem_fmtInt i h2
      · exact absurd h1 (by decide)
    · simp only [List.length_append, List.length_replicate]
      omega
  refine ⟨by decide, hslug, by decide, ?_, ?_⟩
  · unfold statIsNotExist
    rw [hfirst]
    rfl
  · intro fs fuel
    have hloop := uniqueLoop_never_ends linuxHost joinPlain fs "photos".toList
      (List.replicate 300 'a') hall fuel _ 1 hfirst
    unfold writeMarkdown
    rw [if_neg (by decide)]
    have hslug' : (if sanitizeSlug id longTitlePhoto.Title = [] then longTitlePhoto.ID
        else sanitizeSlug id longTitlePhoto.Title) = List.replicate 300 'a' := hslug
    simp only [hslug', hloop]

end Flickr2Galleries
